import Mathlib

/-! Verification of the configuration reader (`src/config/reader.rs`):
reading configuration files, inlining externally referenced scripts, and a
breadth-first resolution of the transitive protobuf descriptor import graph.
Injected transports, the bundled well-known catalog, and the external parsers
are modelled by an environment of functions; every effectful operation
returns its result paired with the list of Source-Loader fetches (file reads
or HTTP requests) it performed, in order. -/

/-- A parsed protocol descriptor (a `FileDescriptorProto`).
Note that `protox_parse::parse(path, content)` names the resulting descriptor
by the `path` argument it is given (the module's own `test_nested_imports`
test relies on this), and the descriptor declares its imports in
`dependency`. -/
structure Proto where
  name : String
  dependency : List String
deriving DecidableEq, Repr

/-- The visited map of the BFS (a `HashMap<String, FileDescriptorProto>`),
modelled as an association list kept in insertion order. -/
abbrev DMap : Type := List (String × Proto)

/-- Lookup, as in `HashMap::get`. -/
def dfind : DMap → String → Option Proto
  | [], _ => none
  | (k', v) :: rest, k => if k' = k then some v else dfind rest k

/-- Insert, as in `HashMap::insert`: overwrites an existing binding in place,
otherwise appends the new binding. -/
def dinsert (d : DMap) (k : String) (v : Proto) : DMap :=
  if (dfind d k).isSome then d.map (fun kv => if kv.1 = k then (k, v) else kv)
  else d ++ [(k, v)]

/-- The key list of a visited map. -/
def dkeys (d : DMap) : List String := d.map Prod.fst

/-- The `@grpc` annotation data used by the reader: its descriptor path. -/
structure GrpcCfg where
  proto_path : String
deriving DecidableEq, Repr

/-- The body of a field-level expression, as scanned by `ext_grpc`. -/
inductive ExprBody where
  | grpc (g : GrpcCfg)
  | other
deriving DecidableEq, Repr

/-- A field-level expression (only its body is inspected by the reader). -/
structure FieldExpr where
  body : ExprBody
deriving DecidableEq, Repr

/-- A field definition: the parts the reader inspects are the direct grpc
annotation and the optional expression body. -/
structure FieldDef where
  grpc : Option GrpcCfg
  expr : Option FieldExpr
deriving DecidableEq, Repr

/-- A named type: a list of named fields. -/
structure TypeDef where
  fields : List (String × FieldDef)
deriving DecidableEq, Repr

/-- Script options: the source (a reference before inlining, the code after)
and the timeout. -/
structure ScriptOptions where
  src : String
  timeout : Option Nat
deriving DecidableEq, Repr

/-- A server script: either still a path reference or already inlined file
content (`Script::Path` / `Script::File`). -/
inductive Script where
  | path (options : ScriptOptions)
  | file (options : ScriptOptions)
deriving DecidableEq, Repr

/-- Server settings: the part the reader touches is the optional script. -/
structure ServerCfg where
  script : Option Script
deriving DecidableEq, Repr

/-- A parsed per-file configuration: the parts `reader.rs` inspects. -/
structure Config where
  server : ServerCfg
  types : List (String × TypeDef)
deriving DecidableEq, Repr

/-- The `FileDescriptorSet` accumulated by `ext_grpc`. -/
structure FileDescriptorSet where
  file : List Proto
deriving DecidableEq, Repr

/-- Modelled from the spec: the extension payload of a ConfigSet besides the
grpc descriptors (spec section 3, "extensions: braces descriptors, ...").
The `Extensions` type itself lives outside the included sources; its other
fields are abstracted into one `otherData` list whose default is empty. -/
structure Extensions where
  grpc_file_descriptor : FileDescriptorSet
  otherData : List String
deriving DecidableEq, Repr

/-- The default (all-empty) extension payload, as in `Default::default()`. -/
def Extensions.default : Extensions := { grpc_file_descriptor := ⟨[]⟩, otherData := [] }

/-- A configuration paired with its resolved extension side data. -/
structure ConfigSet where
  config : Config
  extensions : Extensions
deriving DecidableEq, Repr

/-- Modelled from the spec: `ConfigSet::default()`, the empty accumulator the
merge fold starts from (spec section 4.2); it lives outside the included
sources. -/
def ConfigSet.default : ConfigSet :=
  { config := { server := { script := none }, types := [] }, extensions := Extensions.default }

/-- Modelled from the spec: `ConfigSet::from(config)` pairs a freshly parsed
Config with empty extension data; it lives outside the included sources. -/
def ConfigSet.fromConfig (config : Config) : ConfigSet :=
  { config := config, extensions := Extensions.default }

/-- Result of one file read: the content and the path it came from. -/
structure FileRead where
  content : String
  path : String
deriving DecidableEq, Repr

/-- Format tag produced by format detection (kept abstract). -/
abbrev SourceTag : Type := String

/-- The injected collaborators of the reader.  A failing operation reports an
error string; in the transports that string is the transport's own message. -/
structure Env where
  /-- Whether `Url::parse(file)` succeeds: the syntactic Remote/Local split. -/
  isUrl : String → Bool
  /-- Outcome of `runtime.http.execute` on a GET of the URL, composed with the
  UTF-8 decoding of the response body. -/
  httpFetch : String → Except String String
  /-- Outcome of `runtime.file.read`. -/
  readFS : String → Except String String
  /-- Outcome of `GoogleFileResolver::open_file`: the bundled well-known
  catalog, giving the bundled source text on a hit. -/
  wellKnown : String → Option String
  /-- Outcome of `protox_parse::parse(path, content)`, reduced to the list of
  declared imports; the produced record is named by the `path` argument. -/
  parseProto : String → String → Except String (List String)
  /-- Modelled from the spec: `Source::detect` (format detection by syntactic
  shape, spec section 6); it lives outside the included sources. -/
  detect : String → Except String SourceTag
  /-- Modelled from the spec: `Config::from_source` (per-format document
  parsing, spec section 6); it lives outside the included sources. -/
  fromSource : SourceTag → String → Except String Config
  /-- Modelled from the spec: `merge_right` (spec section 4.2); it lives
  outside the included sources and is kept abstract, since no claim settled
  here depends on its contents. -/
  mergeRight : ConfigSet → ConfigSet → ConfigSet

/-- An effectful result: the outcome together with the ordered list of
Source-Loader fetches performed (one entry per file read or HTTP request,
recorded by the fetched reference). -/
abbrev Res (α : Type) : Type := Except String α × List String

/-- `ConfigReader::read_file`: classify the reference once, then fetch over
the matching transport.  Exactly one Source-Loader fetch is performed. -/
def read_file (env : Env) (file : String) : Res FileRead :=
  if env.isUrl file then
    match env.httpFetch file with
    | .ok body => (.ok ⟨body, file⟩, [file])
    | .error e => (.error e, [file])
  else
    match env.readFS file with
    | .ok content => (.ok ⟨content, file⟩, [file])
    | .error e => (.error e, [file])

/-- `ConfigReader::read_files`: fetch every reference (`join_all` completes
all fetches), then collect in input order; the first failing reference (in
input order) aborts the batch, with the error annotated by that reference
(`map_err(context)`). -/
def read_files (env : Env) : List String → Res (List FileRead)
  | [] => (.ok [], [])
  | f :: rest =>
    match read_file env f, read_files env rest with
    | (.ok fr, log), (.ok frs, log') => (.ok (fr :: frs), log ++ log')
    | (.error _, log), (_, log') => (.error f, log ++ log')
    | (.ok _, log), (.error e, log') => (.error e, log ++ log')

/-- `ConfigReader::read_proto`: try the bundled well-known catalog first (no
Source-Loader fetch on a hit), otherwise fetch through `read_file`; then
parse with `protox_parse::parse(path, content)`. -/
def read_proto (env : Env) (path : String) : Res Proto :=
  match env.wellKnown path with
  | some content =>
    (match env.parseProto path content with
     | .ok deps => .ok ⟨path, deps⟩
     | .error e => .error e, [])
  | none =>
    match read_file env path with
    | (.ok fr, log) =>
      (match env.parseProto path fr.content with
       | .ok deps => .ok ⟨path, deps⟩
       | .error e => .error e, log)
    | (.error e, log) => (.error e, log)

/-- The body of the `for import in file.dependency` loop of
`resolve_descriptors`: each import is read (and parsed) unconditionally; it
is recorded in the visited map and enqueued only when not yet present. -/
def resolve_imports (env : Env) : List String → DMap → List Proto → Res (DMap × List Proto)
  | [], d, q => (.ok (d, q), [])
  | imp :: rest, d, q =>
    match read_proto env imp with
    | (.error e, log) => (.error e, log)
    | (.ok proto, log) =>
      if (dfind d imp).isSome then
        match resolve_imports env rest d q with
        | (r, log') => (r, log ++ log')
      else
        match resolve_imports env rest (dinsert d imp proto) (q ++ [proto]) with
        | (r, log') => (r, log ++ log')

/-- The `while let Some(file) = queue.pop_front()` loop of
`resolve_descriptors`.  `fuel` bounds the number of dequeues; exhausting it
with a non-empty queue yields `none` (the Rust loop would still be running),
so every `some` result is one the source program actually produces. -/
def bfs_loop (env : Env) : Nat → DMap → List Proto → Option (Res DMap)
  | _, d, [] => some (.ok d, [])
  | 0, _, _ :: _ => none
  | fuel + 1, d, file :: q =>
    match resolve_imports env file.dependency d q with
    | (.error e, log) => some (.error e, log)
    | (.ok (d', q'), log) =>
      match bfs_loop env fuel d' q' with
      | none => none
      | some (r, log') => some (r, log ++ log')

/-- `ConfigReader::resolve_descriptors`: read the root, run the BFS over the
declared imports seeded with the root record, and finally insert the root
record itself under `proto_path`. -/
def resolve_descriptors (env : Env) (fuel : Nat) (descriptors : DMap) (proto_path : String) :
    Option (Res DMap) :=
  match read_proto env proto_path with
  | (.error e, log) => some (.error e, log)
  | (.ok parent, log) =>
    match bfs_loop env fuel descriptors [parent] with
    | none => none
    | some (.error e, log') => some (.error e, log ++ log')
    | some (.ok d, log') => some (.ok (dinsert d proto_path parent), log ++ log')

/-- Replace the server script of a ConfigSet (the only mutation `ext_script`
performs). -/
def set_script (cs : ConfigSet) (s : Option Script) : ConfigSet :=
  { cs with config := { cs.config with server := { cs.config.server with script := s } } }

/-- `ConfigReader::ext_script`: if the script is a `Path`, fetch it and
rewrite to a `File` script holding the content with the same timeout;
otherwise the ConfigSet passes through untouched. -/
def ext_script (env : Env) (cs : ConfigSet) : Res ConfigSet :=
  match cs.config.server.script with
  | some (Script.path opts) =>
    match read_file env opts.src with
    | (.ok fr, log) => (.ok (set_script cs (some (Script.file ⟨fr.content, opts.timeout⟩))), log)
    | (.error e, log) => (.error e, log)
  | _ => (.ok cs, [])

/-- The sentinel `NULL_STR` used by `ext_grpc` for fields without a
descriptor path. -/
def NULL_STR : String := "\x00\x00\x00\x00\x00\x00\x00"

/-- The per-field descriptor path selection of `ext_grpc`: the direct grpc
annotation wins, else a grpc expression body, else the sentinel. -/
def field_proto_path (fld : FieldDef) : String :=
  match fld.grpc with
  | some grpc => grpc.proto_path
  | none =>
    match fld.expr with
    | some e =>
      match e.body with
      | ExprBody.grpc grpc => grpc.proto_path
      | ExprBody.other => NULL_STR
    | none => NULL_STR

/-- The descriptor paths of all type fields, in scan order (including
sentinel entries for fields without one). -/
def field_paths (config : Config) : List String :=
  config.types.flatMap (fun t => t.2.fields.map (fun f => field_proto_path f.2))

/-- The `for (_, typ) ... for (_, fld)` loop of `ext_grpc`, threading the
descriptor map through `resolve_descriptors` for every non-sentinel path. -/
def ext_grpc_fold (env : Env) (fuel : Nat) : List String → DMap → Option (Res DMap)
  | [], d => some (.ok d, [])
  | p :: rest, d =>
    if p = NULL_STR then ext_grpc_fold env fuel rest d
    else
      match resolve_descriptors env fuel d p with
      | none => none
      | some (.error e, log) => some (.error e, log)
      | some (.ok d', log) =>
        match ext_grpc_fold env fuel rest d' with
        | none => none
        | some (r, log') => some (r, log ++ log')

/-- The descriptor map `ext_grpc` builds for a configuration, starting from
an empty map. -/
def ext_grpc_descriptors (env : Env) (fuel : Nat) (config : Config) : Option (Res DMap) :=
  ext_grpc_fold env fuel (field_paths config) []

/-- `ConfigReader::ext_grpc`: build the descriptor map from the type fields,
push its values into a fresh `FileDescriptorSet`, and replace the whole
extensions value (`Extensions { grpc_file_descriptor, ..Default::default() }`). -/
def ext_grpc (env : Env) (fuel : Nat) (cs : ConfigSet) : Option (Res ConfigSet) :=
  match ext_grpc_descriptors env fuel cs.config with
  | none => none
  | some (.error e, log) => some (.error e, log)
  | some (.ok d, log) =>
    some (.ok { cs with
      extensions := { Extensions.default with grpc_file_descriptor := ⟨d.map Prod.snd⟩ } }, log)

/-- `ConfigReader::resolve`: wrap the Config, inline the script, resolve the
grpc descriptors. -/
def resolve (env : Env) (fuel : Nat) (config : Config) : Option (Res ConfigSet) :=
  match ext_script env (ConfigSet.fromConfig config) with
  | (.error e, log) => some (.error e, log)
  | (.ok cs', log) =>
    match ext_grpc env fuel cs' with
    | none => none
    | some (r, log') => some (r, log ++ log')

/-- The per-file loop of `read_all`: detect the format, parse, resolve, and
merge into the accumulator, failing fast on any error. -/
def read_all_fold (env : Env) (fuel : Nat) : List FileRead → ConfigSet → Option (Res ConfigSet)
  | [], acc => some (.ok acc, [])
  | fr :: rest, acc =>
    match env.detect fr.path with
    | .error e => some (.error e, [])
    | .ok tag =>
      match env.fromSource tag fr.content with
      | .error e => some (.error e, [])
      | .ok config =>
        match resolve env fuel config with
        | none => none
        | some (.error e, log) => some (.error e, log)
        | some (.ok ncs, log) =>
          match read_all_fold env fuel rest (env.mergeRight acc ncs) with
          | none => none
          | some (r, log') => some (r, log ++ log')

/-- `ConfigReader::read_all`: fetch all files, then fold them into a merged
ConfigSet starting from the default one. -/
def read_all (env : Env) (fuel : Nat) (files : List String) : Option (Res ConfigSet) :=
  match read_files env files with
  | (.error e, log) => some (.error e, log)
  | (.ok frs, log) =>
    match read_all_fold env fuel frs ConfigSet.default with
    | none => none
    | some (r, log') => some (r, log ++ log')

/-- An entry of the visited map is sound when it stores exactly what
`read_proto` produces for its key. -/
def soundMap (env : Env) (d : DMap) : Prop :=
  ∀ k v, dfind d k = some v → (read_proto env k).1 = Except.ok v

/-- All imports of a record are present in the map. -/
def depsDone (d : DMap) (pr : Proto) : Prop :=
  ∀ i ∈ pr.dependency, (dfind d i).isSome

/-- Every entry of the map has all its imports present. -/
def closedMap (d : DMap) : Prop :=
  ∀ k v, dfind d k = some v → depsDone d v

/-- Reachability along declared imports, as resolved by `read_proto`. -/
inductive Reaches (env : Env) (root : String) : String → Prop where
  | refl : Reaches env root root
  | step {b c : String} {pr : Proto} :
      Reaches env root b → (read_proto env b).1 = Except.ok pr → c ∈ pr.dependency →
      Reaches env root c

/-- Invariant of the BFS loop, relative to the initial map `d0`, the root
path and the root record `parent`. -/
structure LoopInv (env : Env) (d0 : DMap) (root : String) (parent : Proto)
    (d : DMap) (q : List Proto) : Prop where
  nodup : (dkeys d).Nodup
  sound : soundMap env d
  mono : ∀ k v, dfind d0 k = some v → dfind d k = some v
  newReach : ∀ k, (dfind d k).isSome → (dfind d0 k).isSome ∨ Reaches env root k
  qSound : ∀ pr ∈ q, (read_proto env pr.name).1 = Except.ok pr
  qReach : ∀ pr ∈ q, Reaches env root pr.name
  parentDone : parent ∈ q ∨ depsDone d parent
  entryDone : ∀ k v, dfind d k = some v → v ∈ q ∨ depsDone d v

/-- Filesystem transport of the concrete demonstration environment. -/
def demoFS : String → Except String String := fun p =>
  if p = "r" then .ok "cr" else if p = "a" then .ok "ca"
  else if p = "x" then .ok "cx" else if p = "y" then .ok "cy"
  else if p = "z" then .ok "cz" else if p = "dr" then .ok "cdr"
  else if p = "s.js" then .ok "some code" else if p = "cfg.graphql" then .ok "schema"
  else .error p

/-- Descriptor parser of the demonstration environment: `r` imports `a`
twice, and `dr`, `x`, `y`, `z` form a diamond. -/
def demoDeps : String → String → Except String (List String) := fun p _ =>
  if p = "r" then .ok ["a", "a"] else if p = "x" then .ok ["z"]
  else if p = "y" then .ok ["z"] else if p = "dr" then .ok ["x", "y"]
  else .ok []

/-- A concrete environment used to evaluate the definitions on closed
inputs. -/
def demoEnv : Env where
  isUrl := fun _ => false
  httpFetch := fun u => .error u
  readFS := demoFS
  wellKnown := fun p => if p = "google/protobuf/empty.proto" then some "wkempty" else none
  parseProto := demoDeps
  detect := fun f => if f = "cfg.graphql" then .ok "graphql" else .error f
  fromSource := fun _ _ => .ok { server := { script := none }, types := [] }
  mergeRight := fun _ b => b

/-- A field referencing a descriptor path through the direct grpc
annotation. -/
def demoField (p : String) : FieldDef := { grpc := some ⟨p⟩, expr := none }

/-- A field referencing a descriptor path through a grpc expression body. -/
def demoFieldExpr (p : String) : FieldDef :=
  { grpc := none, expr := some ⟨ExprBody.grpc ⟨p⟩⟩ }

/-- A configuration referencing paths `a`, `z`, `a` (in that scan order). -/
def demoConfig1 : Config :=
  { server := { script := none },
    types := [("T", ⟨[("f1", demoField "a"), ("f2", demoFieldExpr "z"), ("f3", demoField "a")]⟩)] }

/-- A configuration referencing paths `z`, `a` (in that scan order). -/
def demoConfig2 : Config :=
  { server := { script := none },
    types := [("U", ⟨[("g1", demoField "z"), ("g2", demoField "a")]⟩)] }

/-- A ConfigSet carrying stale extension data and one grpc field. -/
def demoStaleCS : ConfigSet :=
  { config := { server := { script := none }, types := [("T", ⟨[("f1", demoField "a")]⟩)] },
    extensions := { grpc_file_descriptor := ⟨[⟨"junk", []⟩]⟩, otherData := ["stale"] } }

theorem dfind_cons (k' : String) (v : Proto) (rest : DMap) (k : String) :
    dfind ((k', v) :: rest) k = if k' = k then some v else dfind rest k := rfl

theorem dfind_eq_none_iff (d : DMap) (k : String) : dfind d k = none ↔ k ∉ dkeys d := by
  induction d with
  | nil => simp [dfind, dkeys]
  | cons kv rest ih =>
    obtain ⟨k', v⟩ := kv
    rw [dfind_cons]
    by_cases h : k' = k
    · subst h
      simp [dkeys]
    · simp [h, dkeys, ih, Ne.symm h]

theorem dfind_isSome_iff_mem (d : DMap) (k : String) : (dfind d k).isSome ↔ k ∈ dkeys d := by
  rw [Option.isSome_iff_ne_none, Ne, dfind_eq_none_iff, not_not]

theorem dkeys_overwrite (d : DMap) (k : String) (v : Proto) :
    dkeys (d.map (fun kv => if kv.1 = k then (k, v) else kv)) = dkeys d := by
  induction d with
  | nil => rfl
  | cons kv rest ih =>
    by_cases h : kv.1 = k <;> simp [dkeys, h] <;> simpa [dkeys] using ih

theorem dfind_overwrite_self (d : DMap) (k : String) (v : Proto) (h : (dfind d k).isSome) :
    dfind (d.map (fun kv => if kv.1 = k then (k, v) else kv)) k = some v := by
  induction d with
  | nil => simp [dfind] at h
  | cons kv rest ih =>
    obtain ⟨k1, v1⟩ := kv
    by_cases h1 : k1 = k
    · subst h1
      rw [List.map_cons]
      have harg : (if (k1, v1).1 = k1 then (k1, v) else (k1, v1)) = (k1, v) := by simp
      rw [harg, dfind_cons, if_pos rfl]
    · rw [dfind_cons, if_neg h1] at h
      rw [List.map_cons]
      have harg : (if (k1, v1).1 = k then (k, v) else (k1, v1)) = (k1, v1) := by simp [h1]
      rw [harg, dfind_cons, if_neg h1]
      exact ih h

theorem dfind_append_fresh (d : DMap) (k : String) (v : Proto) (h : dfind d k = none) :
    dfind (d ++ [(k, v)]) k = some v := by
  induction d with
  | nil => simp [dfind]
  | cons kv rest ih =>
    obtain ⟨k1, v1⟩ := kv
    rw [dfind_cons] at h
    by_cases h1 : k1 = k
    · rw [if_pos h1] at h
      exact absurd h (by simp)
    · rw [if_neg h1] at h
      rw [List.cons_append, dfind_cons, if_neg h1]
      exact ih h

theorem dfind_dinsert_self (d : DMap) (k : String) (v : Proto) :
    dfind (dinsert d k v) k = some v := by
  unfold dinsert
  by_cases hs : (dfind d k).isSome
  · rw [if_pos hs]
    exact dfind_overwrite_self d k v hs
  · rw [if_neg hs]
    exact dfind_append_fresh d k v (Option.not_isSome_iff_eq_none.mp hs)

theorem dfind_overwrite_ne (d : DMap) (k : String) (v : Proto) (k' : String) (hne : k' ≠ k) :
    dfind (d.map (fun kv => if kv.1 = k then (k, v) else kv)) k' = dfind d k' := by
  induction d with
  | nil => rfl
  | cons kv rest ih =>
    obtain ⟨k1, v1⟩ := kv
    rw [List.map_cons]
    by_cases h1 : k1 = k
    · have harg : (if (k1, v1).1 = k then (k, v) else (k1, v1)) = (k, v) := by simp [h1]
      have h2 : ¬ k1 = k' := by
        rw [h1]
        exact Ne.symm hne
      rw [harg, dfind_cons, dfind_cons, if_neg (Ne.symm hne), if_neg h2]
      exact ih
    · have harg : (if (k1, v1).1 = k then (k, v) else (k1, v1)) = (k1, v1) := by simp [h1]
      rw [harg, dfind_cons, dfind_cons]
      by_cases h2 : k1 = k'
      · rw [if_pos h2, if_pos h2]
      · rw [if_neg h2, if_neg h2]
        exact ih

theorem dfind_append_ne (d : DMap) (k : String) (v : Proto) (k' : String) (hne : k' ≠ k) :
    dfind (d ++ [(k, v)]) k' = dfind d k' := by
  induction d with
  | nil => simp [dfind, Ne.symm hne]
  | cons kv rest ih =>
    obtain ⟨k1, v1⟩ := kv
    rw [List.cons_append, dfind_cons, dfind_cons]
    by_cases h2 : k1 = k'
    · rw [if_pos h2, if_pos h2]
    · rw [if_neg h2, if_neg h2]
      exact ih

theorem dfind_dinsert_ne (d : DMap) (k : String) (v : Proto) (k' : String) (hne : k' ≠ k) :
    dfind (dinsert d k v) k' = dfind d k' := by
  unfold dinsert
  by_cases hs : (dfind d k).isSome
  · rw [if_pos hs]
    exact dfind_overwrite_ne d k v k' hne
  · rw [if_neg hs]
    exact dfind_append_ne d k v k' hne

theorem isSome_dfind_dinsert (d : DMap) (k : String) (v : Proto) (k' : String) :
    (dfind (dinsert d k v) k').isSome ↔ k' = k ∨ (dfind d k').isSome := by
  by_cases hk : k' = k
  · subst hk
    simp [dfind_dinsert_self]
  · rw [dfind_dinsert_ne d k v k' hk]
    simp [hk]

theorem dfind_dinsert_of_fresh {d : DMap} {k : String} {v : Proto} {k' : String} {v' : Proto}
    (hf : dfind d k = none) (h : dfind d k' = some v') :
    dfind (dinsert d k v) k' = some v' := by
  have hk : k' ≠ k := by
    intro he
    rw [he, hf] at h
    exact absurd h (by simp)
  rw [dfind_dinsert_ne d k v k' hk]
  exact h

theorem dkeys_dinsert_fresh (d : DMap) (k : String) (v : Proto) (hf : dfind d k = none) :
    dkeys (dinsert d k v) = dkeys d ++ [k] := by
  unfold dinsert
  rw [if_neg (by simp [hf])]
  simp [dkeys]

theorem nodup_dinsert (d : DMap) (k : String) (v : Proto) (h : (dkeys d).Nodup) :
    (dkeys (dinsert d k v)).Nodup := by
  by_cases hs : (dfind d k).isSome
  · unfold dinsert
    rw [if_pos hs, dkeys_overwrite]
    exact h
  · have hf : dfind d k = none := Option.not_isSome_iff_eq_none.mp hs
    rw [dkeys_dinsert_fresh d k v hf]
    have hk : k ∉ dkeys d := (dfind_eq_none_iff d k).mp hf
    simp [List.nodup_append, h, hk]

theorem read_proto_name (env : Env) (p : String) (pr : Proto)
    (h : (read_proto env p).1 = Except.ok pr) : pr.name = p := by
  unfold read_proto at h
  cases hwk : env.wellKnown p with
  | some content =>
    rw [hwk] at h
    dsimp only at h
    cases hp : env.parseProto p content with
    | ok deps =>
      rw [hp] at h
      injection h with h1
      rw [← h1]
    | error e =>
      rw [hp] at h
      exact absurd h (by simp)
  | none =>
    rw [hwk] at h
    cases hrf : read_file env p with
    | mk r0 log =>
      rw [hrf] at h
      cases r0 with
      | ok fr =>
        dsimp only at h
        cases hp : env.parseProto p fr.content with
        | ok deps =>
          rw [hp] at h
          injection h with h1
          rw [← h1]
        | error e =>
          rw [hp] at h
          exact absurd h (by simp)
      | error e =>
        dsimp only at h
        exact absurd h (by simp)

theorem read_file_path (env : Env) (f : String) (fr : FileRead)
    (h : (read_file env f).1 = Except.ok fr) : fr.path = f := by
  unfold read_file at h
  cases hu : env.isUrl f <;> rw [hu] at h <;> simp only [Bool.false_eq_true, if_false, if_true] at h
  · cases hr : env.readFS f with
    | ok content =>
      rw [hr] at h
      injection h with h1
      rw [← h1]
    | error e =>
      rw [hr] at h
      exact absurd h (by simp)
  · cases hr : env.httpFetch f with
    | ok body =>
      rw [hr] at h
      injection h with h1
      rw [← h1]
    | error e =>
      rw [hr] at h
      exact absurd h (by simp)

theorem isSome_of_dfind_eq {d : DMap} {k : String} {v : Proto} (h : dfind d k = some v) :
    (dfind d k).isSome := by
  rw [h]
  rfl

theorem resolve_imports_spec (env : Env) :
    ∀ (imports : List String) (d : DMap) (q : List Proto) (d' : DMap) (q' : List Proto)
      (log : List String),
      (dkeys d).Nodup → soundMap env d →
      resolve_imports env imports d q = (Except.ok (d', q'), log) →
      (dkeys d').Nodup ∧ soundMap env d' ∧
      (∀ k v, dfind d k = some v → dfind d' k = some v) ∧
      (∀ k, (dfind d' k).isSome → (dfind d k).isSome ∨ k ∈ imports) ∧
      (∀ i ∈ imports, (dfind d' i).isSome) ∧
      (∃ news, q' = q ++ news ∧
        ∀ pr ∈ news, (read_proto env pr.name).1 = Except.ok pr ∧ pr.name ∈ imports) ∧
      (∀ k v, dfind d' k = some v → dfind d k = some v ∨ v ∈ q') := by
  intro imports
  induction imports with
  | nil =>
    intro d q d' q' log hnd hsd h
    unfold resolve_imports at h
    simp only [Prod.mk.injEq, Except.ok.injEq] at h
    obtain ⟨⟨hd, hq⟩, hlog⟩ := h
    subst hd
    subst hq
    refine ⟨hnd, hsd, fun k v hv => hv, fun k hk => Or.inl hk, ?_, ⟨[], by simp, by simp⟩,
      fun k v hv => Or.inl hv⟩
    intro i hi
    exact absurd hi (List.not_mem_nil i)
  | cons imp rest ih =>
    intro d q d' q' log hnd hsd h
    unfold resolve_imports at h
    cases hrp : read_proto env imp with
    | mk r0 plog =>
      rw [hrp] at h
      cases r0 with
      | error e => simp at h
      | ok proto =>
        dsimp only at h
        have hrp1 : (read_proto env imp).1 = Except.ok proto := by
          rw [hrp]
        by_cases hvis : (dfind d imp).isSome
        · rw [if_pos hvis] at h
          cases hrec : resolve_imports env rest d q with
          | mk r1 log1 =>
            rw [hrec] at h
            simp only [Prod.mk.injEq] at h
            obtain ⟨hr1, hlog⟩ := h
            subst hr1
            obtain ⟨N, S, M, R, P, ⟨news, hq, hnews⟩, E⟩ := ih d q d' q' log1 hnd hsd hrec
            refine ⟨N, S, M, ?_, ?_, ⟨news, hq, ?_⟩, E⟩
            · intro k hk
              rcases R k hk with h1 | h1
              · exact Or.inl h1
              · exact Or.inr (List.mem_cons_of_mem _ h1)
            · intro i hi
              rcases List.mem_cons.mp hi with h1 | h1
              · subst h1
                obtain ⟨v, hv⟩ := Option.isSome_iff_exists.mp hvis
                exact isSome_of_dfind_eq (M _ _ hv)
              · exact P i h1
            · intro pr hpr
              obtain ⟨h1, h2⟩ := hnews pr hpr
              exact ⟨h1, List.mem_cons_of_mem _ h2⟩
        · rw [if_neg hvis] at h
          have hfresh : dfind d imp = none := Option.not_isSome_iff_eq_none.mp hvis
          have hnd2 : (dkeys (dinsert d imp proto)).Nodup := nodup_dinsert d imp proto hnd
          have hsd2 : soundMap env (dinsert d imp proto) := by
            intro k v hkv
            by_cases hk : k = imp
            · subst hk
              rw [dfind_dinsert_self] at hkv
              injection hkv with hv
              rw [← hv]
              exact hrp1
            · rw [dfind_dinsert_ne d imp proto k hk] at hkv
              exact hsd k v hkv
          cases hrec : resolve_imports env rest (dinsert d imp proto) (q ++ [proto]) with
          | mk r1 log1 =>
            rw [hrec] at h
            simp only [Prod.mk.injEq] at h
            obtain ⟨hr1, hlog⟩ := h
            subst hr1
            obtain ⟨N, S, M, R, P, ⟨news, hq, hnews⟩, E⟩ := ih _ _ d' q' log1 hnd2 hsd2 hrec
            have hname : proto.name = imp := read_proto_name env imp proto hrp1
            refine ⟨N, S, ?_, ?_, ?_, ?_, ?_⟩
            · intro k v hkv
              exact M k v (dfind_dinsert_of_fresh hfresh hkv)
            · intro k hk
              rcases R k hk with h1 | h1
              · rcases (isSome_dfind_dinsert d imp proto k).mp h1 with h2 | h2
                · subst h2
                  exact Or.inr (List.mem_cons_self _ _)
                · exact Or.inl h2
              · exact Or.inr (List.mem_cons_of_mem _ h1)
            · intro i hi
              rcases List.mem_cons.mp hi with h1 | h1
              · subst h1
                exact isSome_of_dfind_eq (M _ _ (dfind_dinsert_self d i proto))
              · exact P i h1
            · refine ⟨proto :: news, ?_, ?_⟩
              · rw [hq]
                simp
              · intro pr hpr
                rcases List.mem_cons.mp hpr with h1 | h1
                · subst h1
                  rw [hname]
                  exact ⟨hrp1, List.mem_cons_self _ _⟩
                · obtain ⟨h2, h3⟩ := hnews pr h1
                  exact ⟨h2, List.mem_cons_of_mem _ h3⟩
            · intro k v hkv
              rcases E k v hkv with h1 | h1
              · by_cases hk : k = imp
                · subst hk
                  rw [dfind_dinsert_self] at h1
                  injection h1 with hv
                  right
                  rw [hq, ← hv]
                  simp
                · rw [dfind_dinsert_ne d imp proto k hk] at h1
                  exact Or.inl h1
              · exact Or.inr h1

theorem depsDone_mono {d d' : DMap} (hm : ∀ k v, dfind d k = some v → dfind d' k = some v)
    {pr : Proto} (h : depsDone d pr) : depsDone d' pr := by
  intro i hi
  obtain ⟨v, hv⟩ := Option.isSome_iff_exists.mp (h i hi)
  exact isSome_of_dfind_eq (hm i v hv)

theorem loop_inv_final {env : Env} {d0 : DMap} {root : String} {parent : Proto} {d : DMap}
    (hinv : LoopInv env d0 root parent d []) :
    (dkeys d).Nodup ∧ soundMap env d ∧
    (∀ k v, dfind d k = some v → dfind d k = some v) ∧
    (∀ k, (dfind d k).isSome → (dfind d0 k).isSome ∨ Reaches env root k) ∧
    depsDone d parent ∧ closedMap d := by
  refine ⟨hinv.nodup, hinv.sound, fun k v hv => hv, hinv.newReach, ?_, ?_⟩
  · rcases hinv.parentDone with h | h
    · exact absurd h (List.not_mem_nil parent)
    · exact h
  · intro k v hv
    rcases hinv.entryDone k v hv with h | h
    · exact absurd h (List.not_mem_nil v)
    · exact h

theorem bfs_loop_spec (env : Env) (d0 : DMap) (root : String) (parent : Proto) :
    ∀ (fuel : Nat) (d : DMap) (q : List Proto) (dF : DMap) (log : List String),
      LoopInv env d0 root parent d q →
      bfs_loop env fuel d q = some (Except.ok dF, log) →
      (dkeys dF).Nodup ∧ soundMap env dF ∧
      (∀ k v, dfind d k = some v → dfind dF k = some v) ∧
      (∀ k, (dfind dF k).isSome → (dfind d0 k).isSome ∨ Reaches env root k) ∧
      depsDone dF parent ∧ closedMap dF := by
  intro fuel
  induction fuel with
  | zero =>
    intro d q dF log hinv h
    cases q with
    | nil =>
      unfold bfs_loop at h
      simp only [Option.some.injEq, Prod.mk.injEq, Except.ok.injEq] at h
      obtain ⟨hd, hlog⟩ := h
      subst hd
      exact loop_inv_final hinv
    | cons file qt =>
      unfold bfs_loop at h
      exact absurd h (by simp)
  | succ fuel ih =>
    intro d q dF log hinv h
    cases q with
    | nil =>
      unfold bfs_loop at h
      simp only [Option.some.injEq, Prod.mk.injEq, Except.ok.injEq] at h
      obtain ⟨hd, hlog⟩ := h
      subst hd
      exact loop_inv_final hinv
    | cons file qt =>
      unfold bfs_loop at h
      cases hres : resolve_imports env file.dependency d qt with
      | mk r0 log0 =>
        rw [hres] at h
        cases r0 with
        | error e =>
          dsimp only at h
          exact absurd h (by simp)
        | ok dq =>
          obtain ⟨d2, q2⟩ := dq
          dsimp only at h
          cases hb : bfs_loop env fuel d2 q2 with
          | none =>
            rw [hb] at h
            exact absurd h (by simp)
          | some rl =>
            obtain ⟨r2, log2⟩ := rl
            rw [hb] at h
            dsimp only at h
            simp only [Option.some.injEq, Prod.mk.injEq] at h
            obtain ⟨hr2, hlog⟩ := h
            subst hr2
            have hmemf : file ∈ file :: qt := List.mem_cons_self _ _
            have hqs := hinv.qSound file hmemf
            have hqr := hinv.qReach file hmemf
            obtain ⟨N, S, M, R, P, ⟨news, hq2, hnews⟩, E⟩ :=
              resolve_imports_spec env file.dependency d qt d2 q2 log0 hinv.nodup hinv.sound hres
            have hinv2 : LoopInv env d0 root parent d2 q2 := by
              refine ⟨N, S, ?_, ?_, ?_, ?_, ?_, ?_⟩
              · intro k v hv
                exact M k v (hinv.mono k v hv)
              · intro k hk
                rcases R k hk with h1 | h1
                · exact hinv.newReach k h1
                · exact Or.inr (Reaches.step hqr hqs h1)
              · intro pr hpr
                rw [hq2] at hpr
                rcases List.mem_append.mp hpr with h1 | h1
                · exact hinv.qSound pr (List.mem_cons_of_mem _ h1)
                · exact (hnews pr h1).1
              · intro pr hpr
                rw [hq2] at hpr
                rcases List.mem_append.mp hpr with h1 | h1
                · exact hinv.qReach pr (List.mem_cons_of_mem _ h1)
                · exact Reaches.step hqr hqs (hnews pr h1).2
              · rcases hinv.parentDone with h1 | h1
                · rcases List.mem_cons.mp h1 with h2 | h2
                  · subst h2
                    exact Or.inr (fun i hi => P i hi)
                  · refine Or.inl ?_
                    rw [hq2]
                    exact List.mem_append_left _ h2
                · exact Or.inr (depsDone_mono M h1)
              · intro k v hv
                rcases E k v hv with h1 | h1
                · rcases hinv.entryDone k v h1 with h2 | h2
                  · rcases List.mem_cons.mp h2 with h3 | h3
                    · subst h3
                      exact Or.inr (fun i hi => P i hi)
                    · refine Or.inl ?_
                      rw [hq2]
                      exact List.mem_append_left _ h3
                  · exact Or.inr (depsDone_mono M h2)
                · exact Or.inl h1
            obtain ⟨N2, S2, M2, R2, PD2, C2⟩ := ih d2 q2 dF log2 hinv2 hb
            refine ⟨N2, S2, ?_, R2, PD2, C2⟩
            intro k v hv
            exact M2 k v (M k v hv)

theorem reach_mem_closed {env : Env} {d : DMap} (hs : soundMap env d) (hc : closedMap d)
    {root k : String} (hroot : (dfind d root).isSome) (hr : Reaches env root k) :
    (dfind d k).isSome := by
  induction hr with
  | refl => exact hroot
  | step hab hpr hdep ihab =>
    obtain ⟨v, hv⟩ := Option.isSome_iff_exists.mp ihab
    have h1 := hs _ _ hv
    rw [hpr] at h1
    injection h1 with h2
    subst h2
    exact hc _ _ hv _ hdep

theorem resolve_descriptors_char (env : Env) (fuel : Nat) (d0 : DMap) (root : String)
    (dF : DMap) (log : List String)
    (hnd : (dkeys d0).Nodup) (hsd : soundMap env d0) (hcd : closedMap d0)
    (h : resolve_descriptors env fuel d0 root = some (Except.ok dF, log)) :
    (dkeys dF).Nodup ∧ soundMap env dF ∧ closedMap dF ∧
    (∀ k v, dfind d0 k = some v → dfind dF k = some v) ∧
    (∀ k, (dfind dF k).isSome ↔ ((dfind d0 k).isSome ∨ Reaches env root k)) := by
  unfold resolve_descriptors at h
  cases hrp : read_proto env root with
  | mk r0 log0 =>
    rw [hrp] at h
    cases r0 with
    | error e =>
      dsimp only at h
      exact absurd h (by simp)
    | ok parent =>
      dsimp only at h
      cases hb : bfs_loop env fuel d0 [parent] with
      | none =>
        rw [hb] at h
        exact absurd h (by simp)
      | some rl =>
        obtain ⟨r1, log1⟩ := rl
        rw [hb] at h
        cases r1 with
        | error e =>
          dsimp only at h
          exact absurd h (by simp)
        | ok dB =>
          dsimp only at h
          simp only [Option.some.injEq, Prod.mk.injEq, Except.ok.injEq] at h
          obtain ⟨hdF, hlog⟩ := h
          subst hdF
          have hrp1 : (read_proto env root).1 = Except.ok parent := by
            rw [hrp]
          have hname : parent.name = root := read_proto_name env root parent hrp1
          have hinv0 : LoopInv env d0 root parent d0 [parent] := by
            refine ⟨hnd, hsd, fun k v hv => hv, fun k hk => Or.inl hk, ?_, ?_, ?_, ?_⟩
            · intro pr hpr
              rcases List.mem_cons.mp hpr with h1 | h1
              · subst h1
                rw [hname]
                exact hrp1
              · exact absurd h1 (List.not_mem_nil pr)
            · intro pr hpr
              rcases List.mem_cons.mp hpr with h1 | h1
              · subst h1
                rw [hname]
                exact Reaches.refl
              · exact absurd h1 (List.not_mem_nil pr)
            · exact Or.inl (List.mem_cons_self _ _)
            · intro k v hv
              exact Or.inr (hcd k v hv)
          obtain ⟨N, S, M, R, PD, C⟩ :=
            bfs_loop_spec env d0 root parent fuel d0 [parent] dB log1 hinv0 hb
          have hRootIn : dfind (dinsert dB root parent) root = some parent :=
            dfind_dinsert_self dB root parent
          have hup : ∀ i, (dfind dB i).isSome → (dfind (dinsert dB root parent) i).isSome :=
            fun i hi => (isSome_dfind_dinsert dB root parent i).mpr (Or.inr hi)
          have hS : soundMap env (dinsert dB root parent) := by
            intro k v hv
            by_cases hk : k = root
            · subst hk
              rw [dfind_dinsert_self] at hv
              injection hv with h2
              rw [← h2]
              exact hrp1
            · rw [dfind_dinsert_ne dB root parent k hk] at hv
              exact S k v hv
          have hC : closedMap (dinsert dB root parent) := by
            intro k v hv
            by_cases hk : k = root
            · subst hk
              rw [dfind_dinsert_self] at hv
              injection hv with h2
              subst h2
              intro i hi
              exact hup i (PD i hi)
            · rw [dfind_dinsert_ne dB root parent k hk] at hv
              intro i hi
              exact hup i (C k v hv i hi)
          have hN : (dkeys (dinsert dB root parent)).Nodup := nodup_dinsert dB root parent N
          have hM : ∀ k v, dfind d0 k = some v → dfind (dinsert dB root parent) k = some v := by
            intro k v hv
            have h1 := M k v hv
            by_cases hk : k = root
            · subst hk
              have h2 := S _ _ h1
              rw [hrp1] at h2
              injection h2 with h3
              subst h3
              exact dfind_dinsert_self _ _ _
            · rw [dfind_dinsert_ne dB root parent k hk]
              exact h1
          refine ⟨hN, hS, hC, hM, ?_⟩
          intro k
          constructor
          · intro hk
            rcases (isSome_dfind_dinsert dB root parent k).mp hk with h1 | h1
            · subst h1
              exact Or.inr Reaches.refl
            · exact R k h1
          · intro hk
            rcases hk with h1 | h1
            · obtain ⟨v, hv⟩ := Option.isSome_iff_exists.mp h1
              exact isSome_of_dfind_eq (hM k v hv)
            · exact reach_mem_closed hS hC (isSome_of_dfind_eq hRootIn) h1

theorem ext_grpc_fold_char (env : Env) (fuel : Nat) :
    ∀ (L : List String) (d0 dF : DMap) (log : List String),
      (dkeys d0).Nodup → soundMap env d0 → closedMap d0 →
      ext_grpc_fold env fuel L d0 = some (Except.ok dF, log) →
      (dkeys dF).Nodup ∧ soundMap env dF ∧ closedMap dF ∧
      (∀ k v, dfind d0 k = some v → dfind dF k = some v) ∧
      (∀ k, (dfind dF k).isSome ↔
        ((dfind d0 k).isSome ∨ ∃ p, p ∈ L ∧ p ≠ NULL_STR ∧ Reaches env p k)) := by
  intro L
  induction L with
  | nil =>
    intro d0 dF log hnd hsd hcd h
    unfold ext_grpc_fold at h
    simp only [Option.some.injEq, Prod.mk.injEq, Except.ok.injEq] at h
    obtain ⟨hd, hlog⟩ := h
    subst hd
    refine ⟨hnd, hsd, hcd, fun k v hv => hv, ?_⟩
    intro k
    simp
  | cons p rest ih =>
    intro d0 dF log hnd hsd hcd h
    unfold ext_grpc_fold at h
    by_cases hp : p = NULL_STR
    · rw [if_pos hp] at h
      obtain ⟨N, S, C, M, I⟩ := ih d0 dF log hnd hsd hcd h
      refine ⟨N, S, C, M, ?_⟩
      intro k
      rw [I k]
      constructor
      · rintro (h1 | ⟨q, hq1, hq2, hq3⟩)
        · exact Or.inl h1
        · exact Or.inr ⟨q, List.mem_cons_of_mem _ hq1, hq2, hq3⟩
      · rintro (h1 | ⟨q, hq1, hq2, hq3⟩)
        · exact Or.inl h1
        · rcases List.mem_cons.mp hq1 with h2 | h2
          · exact absurd (h2.trans hp) hq2
          · exact Or.inr ⟨q, h2, hq2, hq3⟩
    · rw [if_neg hp] at h
      cases hrd : resolve_descriptors env fuel d0 p with
      | none =>
        rw [hrd] at h
        exact absurd h (by simp)
      | some rl =>
        obtain ⟨r1, log1⟩ := rl
        rw [hrd] at h
        cases r1 with
        | error e =>
          dsimp only at h
          exact absurd h (by simp)
        | ok d1 =>
          dsimp only at h
          cases hrest : ext_grpc_fold env fuel rest d1 with
          | none =>
            rw [hrest] at h
            exact absurd h (by simp)
          | some rl2 =>
            obtain ⟨r2, log2⟩ := rl2
            rw [hrest] at h
            dsimp only at h
            simp only [Option.some.injEq, Prod.mk.injEq] at h
            obtain ⟨hr2, hlog⟩ := h
            subst hr2
            obtain ⟨N1, S1, C1, M1, I1⟩ :=
              resolve_descriptors_char env fuel d0 p d1 log1 hnd hsd hcd hrd
            obtain ⟨N, S, C, M, I⟩ := ih d1 dF log2 N1 S1 C1 hrest
            refine ⟨N, S, C, fun k v hv => M k v (M1 k v hv), ?_⟩
            intro k
            rw [I k]
            constructor
            · rintro (h1 | ⟨q, hq1, hq2, hq3⟩)
              · rcases (I1 k).mp h1 with h2 | h2
                · exact Or.inl h2
                · exact Or.inr ⟨p, List.mem_cons_self _ _, hp, h2⟩
              · exact Or.inr ⟨q, List.mem_cons_of_mem _ hq1, hq2, hq3⟩
            · rintro (h1 | ⟨q, hq1, hq2, hq3⟩)
              · exact Or.inl ((I1 k).mpr (Or.inl h1))
              · rcases List.mem_cons.mp hq1 with h2 | h2
                · subst h2
                  exact Or.inl ((I1 k).mpr (Or.inr hq3))
                · exact Or.inr ⟨q, h2, hq2, hq3⟩

theorem read_files_ok_spec (env : Env) :
    ∀ (files : List String) (frs : List FileRead) (log : List String),
      read_files env files = (Except.ok frs, log) →
      frs.map FileRead.path = files ∧ ∀ fr ∈ frs, (read_file env fr.path).1 = Except.ok fr := by
  intro files
  induction files with
  | nil =>
    intro frs log h
    unfold read_files at h
    simp only [Prod.mk.injEq, Except.ok.injEq] at h
    obtain ⟨h1, h2⟩ := h
    subst h1
    refine ⟨rfl, ?_⟩
    intro fr hfr
    exact absurd hfr (List.not_mem_nil fr)
  | cons f rest ih =>
    intro frs log h
    unfold read_files at h
    cases hf : read_file env f with
    | mk r0 l0 =>
      rw [hf] at h
      cases hrest : read_files env rest with
      | mk r1 l1 =>
        rw [hrest] at h
        cases r0 with
        | error e =>
          dsimp only at h
          exact absurd h (by simp)
        | ok fr =>
          cases r1 with
          | error e =>
            dsimp only at h
            exact absurd h (by simp)
          | ok frs' =>
            dsimp only at h
            simp only [Prod.mk.injEq, Except.ok.injEq] at h
            obtain ⟨h1, h2⟩ := h
            subst h1
            obtain ⟨ihm, ihok⟩ := ih frs' l1 hrest
            have hpath : fr.path = f := read_file_path env f fr (by rw [hf])
            constructor
            · rw [List.map_cons, hpath, ihm]
            · intro fr' hfr'
              rcases List.mem_cons.mp hfr' with h3 | h3
              · subst h3
                rw [hpath, hf]
              · exact ihok fr' h3

theorem read_files_error_spec (env : Env) :
    ∀ (files : List String) (e : String) (log : List String),
      read_files env files = (Except.error e, log) →
      e ∈ files ∧ ∃ msg, (read_file env e).1 = Except.error msg := by
  intro files
  induction files with
  | nil =>
    intro e log h
    unfold read_files at h
    exact absurd h (by simp)
  | cons f rest ih =>
    intro e log h
    unfold read_files at h
    cases hf : read_file env f with
    | mk r0 l0 =>
      rw [hf] at h
      cases hrest : read_files env rest with
      | mk r1 l1 =>
        rw [hrest] at h
        cases r0 with
        | error e0 =>
          dsimp only at h
          simp only [Prod.mk.injEq, Except.error.injEq] at h
          obtain ⟨h1, h2⟩ := h
          subst h1
          refine ⟨List.mem_cons_self _ _, e0, ?_⟩
          rw [hf]
        | ok fr =>
          cases r1 with
          | error e1 =>
            dsimp only at h
            simp only [Prod.mk.injEq, Except.error.injEq] at h
            obtain ⟨h1, h2⟩ := h
            subst h1
            obtain ⟨hmem, hmsg⟩ := ih _ l1 hrest
            exact ⟨List.mem_cons_of_mem _ hmem, hmsg⟩
          | ok frs =>
            dsimp only at h
            exact absurd h (by simp)

theorem read_files_fail_if_any (env : Env) :
    ∀ (files : List String) (f msg : String), f ∈ files →
      (read_file env f).1 = Except.error msg →
      ∃ e log, read_files env files = (Except.error e, log) := by
  intro files
  induction files with
  | nil =>
    intro f msg hf _
    exact absurd hf (List.not_mem_nil f)
  | cons g rest ih =>
    intro f msg hf herr
    cases hg : read_file env g with
    | mk r0 l0 =>
      cases hrest : read_files env rest with
      | mk r1 l1 =>
        rcases List.mem_cons.mp hf with h1 | h1
        · subst h1
          cases r0 with
          | ok fr =>
            rw [hg] at herr
            exact absurd herr (by simp)
          | error e0 =>
            refine ⟨f, l0 ++ l1, ?_⟩
            unfold read_files
            rw [hg, hrest]
        · cases r0 with
          | error e0 =>
            refine ⟨g, l0 ++ l1, ?_⟩
            unfold read_files
            rw [hg, hrest]
          | ok fr =>
            obtain ⟨e1, L1, hrest2⟩ := ih f msg h1 herr
            rw [hrest2] at hrest
            injection hrest with hr1 hl1
            subst hr1
            subst hl1
            refine ⟨e1, l0 ++ L1, ?_⟩
            unfold read_files
            rw [hg, hrest2]

theorem read_all_fold_ok_spec (env : Env) (fuel : Nat) :
    ∀ (frs : List FileRead) (acc cs : ConfigSet) (log : List String),
      read_all_fold env fuel frs acc = some (Except.ok cs, log) →
      ∀ fr ∈ frs, ∃ tag, env.detect fr.path = Except.ok tag ∧
        ∃ config, env.fromSource tag fr.content = Except.ok config ∧
        ∃ csf logf, resolve env fuel config = some (Except.ok csf, logf) := by
  intro frs
  induction frs with
  | nil =>
    intro acc cs log h fr hfr
    exact absurd hfr (List.not_mem_nil fr)
  | cons fr0 rest ih =>
    intro acc cs log h fr hfr
    unfold read_all_fold at h
    cases hdet : env.detect fr0.path with
    | error e =>
      rw [hdet] at h
      simp at h
    | ok tag =>
      rw [hdet] at h
      dsimp only at h
      cases hsrc : env.fromSource tag fr0.content with
      | error e =>
        rw [hsrc] at h
        simp at h
      | ok config =>
        rw [hsrc] at h
        dsimp only at h
        cases hres : resolve env fuel config with
        | none =>
          rw [hres] at h
          simp at h
        | some rl =>
          obtain ⟨r1, l1⟩ := rl
          rw [hres] at h
          cases r1 with
          | error e =>
            dsimp only at h
            simp at h
          | ok ncs =>
            dsimp only at h
            cases hrest : read_all_fold env fuel rest (env.mergeRight acc ncs) with
            | none =>
              rw [hrest] at h
              simp at h
            | some rl2 =>
              obtain ⟨r2, l2⟩ := rl2
              rw [hrest] at h
              dsimp only at h
              simp only [Option.some.injEq, Prod.mk.injEq] at h
              obtain ⟨h1, h2⟩ := h
              subst h1
              rcases List.mem_cons.mp hfr with h3 | h3
              · subst h3
                exact ⟨tag, hdet, config, hsrc, ncs, l1, hres⟩
              · exact ih _ cs l2 hrest fr h3

/-- C1 (counterexample): in the concrete environment where descriptor `r`
declares the import list `[a, a]`, the second encounter of `a` happens while
`a` is already in the visited map, yet the fetch log of the whole resolution
is `[r, a, a]`: the already-visited import is fetched and parsed a second
time (two fetches of `a`), where the claim predicts that only identifiers not
yet in the visited map cause a fetch, i.e. a single fetch of `a`. -/
theorem resolve_descriptors_refetch_cx :
    resolve_descriptors demoEnv 5 [] "r" =
      some (Except.ok [("a", Proto.mk "a" []), ("r", Proto.mk "r" ["a", "a"])],
        ["r", "a", "a"]) ∧
    (["r", "a", "a"].count "a" = 2) := ⟨rfl, rfl⟩

/-- C1 (amended): when the dequeued file's next import is already present in
the visited map, processing it leaves the visited map and the queue exactly
as if the import were skipped — it is neither re-inserted nor re-enqueued —
but the import is still fetched and parsed once more (the skip check runs
only after `read_proto`), so the fetch log grows by that fetch. -/
theorem resolve_imports_visited_skip (env : Env) (imp : String) (rest : List String)
    (d : DMap) (q : List Proto) (pr : Proto) (plog : List String)
    (hvisited : (dfind d imp).isSome)
    (hfetch : read_proto env imp = (Except.ok pr, plog)) :
    resolve_imports env (imp :: rest) d q =
      ((resolve_imports env rest d q).1, plog ++ (resolve_imports env rest d q).2) := by
  cases hrec : resolve_imports env rest d q with
  | mk r l =>
    simp only [resolve_imports, hfetch]
    rw [if_pos hvisited, hrec]

/-- Witness for the amended C1 theorem at the concrete environment. -/
theorem resolve_imports_visited_skip_witness :
    resolve_imports demoEnv ["a"] [("a", Proto.mk "a" [])] [] =
      ((resolve_imports demoEnv [] [("a", Proto.mk "a" [])] []).1,
        ["a"] ++ (resolve_imports demoEnv [] [("a", Proto.mk "a" [])] []).2) :=
  resolve_imports_visited_skip demoEnv "a" [] [("a", Proto.mk "a" [])] []
    (Proto.mk "a" []) ["a"] rfl rfl

/-- C2: a successful `resolve_descriptors` run for a root path returns a map
containing the root's parsed record under the record's own declared name,
which equals the root path itself, since the descriptor parser names every
record by the path it is handed. -/
theorem resolve_descriptors_root_inserted (env : Env) (fuel : Nat) (d0 : DMap)
    (root : String) (dF : DMap) (log : List String)
    (h : resolve_descriptors env fuel d0 root = some (Except.ok dF, log)) :
    ∃ parent, (read_proto env root).1 = Except.ok parent ∧
      dfind dF root = some parent ∧ parent.name = root := by
  unfold resolve_descriptors at h
  cases hrp : read_proto env root with
  | mk r0 log0 =>
    rw [hrp] at h
    cases r0 with
    | error e =>
      dsimp only at h
      simp at h
    | ok parent =>
      dsimp only at h
      cases hb : bfs_loop env fuel d0 [parent] with
      | none =>
        rw [hb] at h
        simp at h
      | some rl =>
        obtain ⟨r1, log1⟩ := rl
        rw [hb] at h
        cases r1 with
        | error e =>
          dsimp only at h
          simp at h
        | ok dB =>
          dsimp only at h
          simp only [Option.some.injEq, Prod.mk.injEq, Except.ok.injEq] at h
          obtain ⟨h1, h2⟩ := h
          subst h1
          have hrp1 : (read_proto env root).1 = Except.ok parent := by
            rw [hrp]
          exact ⟨parent, rfl, dfind_dinsert_self dB root parent,
            read_proto_name env root parent hrp1⟩

/-- Witness for C2: the import-free descriptor `a` resolves to a singleton
map holding itself under its own name. -/
theorem resolve_descriptors_root_inserted_witness :
    ∃ parent, (read_proto demoEnv "a").1 = Except.ok parent ∧
      dfind [("a", Proto.mk "a" [])] "a" = some parent ∧ parent.name = "a" :=
  resolve_descriptors_root_inserted demoEnv 5 [] "a" [("a", Proto.mk "a" [])] ["a"] rfl

/-- C3: in any diamond-shaped import graph (the root imports x and y, both of
which import z), a successful fresh `resolve_descriptors` run returns a map
whose key list counts exactly one entry for z, never two. -/
theorem resolve_descriptors_diamond_unique (env : Env) (fuel : Nat)
    (root x y z : String) (prR prX prY : Proto) (dF : DMap) (log : List String)
    (hR : (read_proto env root).1 = Except.ok prR) (hRdep : prR.dependency = [x, y])
    (hX : (read_proto env x).1 = Except.ok prX) (hXdep : prX.dependency = [z])
    (hY : (read_proto env y).1 = Except.ok prY) (hYdep : prY.dependency = [z])
    (h : resolve_descriptors env fuel [] root = some (Except.ok dF, log)) :
    (dkeys dF).count z = 1 := by
  have hnd : (dkeys ([] : DMap)).Nodup := List.nodup_nil
  have hsd : soundMap env [] := by
    intro k v hv
    simp [dfind] at hv
  have hcd : closedMap [] := by
    intro k v hv
    simp [dfind] at hv
  obtain ⟨N, S, C, M, I⟩ := resolve_descriptors_char env fuel [] root dF log hnd hsd hcd h
  have hrx : Reaches env root x := by
    refine Reaches.step Reaches.refl hR ?_
    rw [hRdep]
    exact List.mem_cons_self _ _
  have hreach : Reaches env root z := by
    refine Reaches.step hrx hX ?_
    rw [hXdep]
    exact List.mem_cons_self _ _
  have hz : (dfind dF z).isSome := (I z).mpr (Or.inr hreach)
  have hmem : z ∈ dkeys dF := (dfind_isSome_iff_mem dF z).mp hz
  exact List.count_eq_one_of_mem N hmem

/-- Witness for C3 on the concrete diamond `dr imports x, y; x, y import z`. -/
theorem resolve_descriptors_diamond_unique_witness :
    (dkeys [("x", Proto.mk "x" ["z"]), ("y", Proto.mk "y" ["z"]),
      ("z", Proto.mk "z" []), ("dr", Proto.mk "dr" ["x", "y"])]).count "z" = 1 :=
  resolve_descriptors_diamond_unique demoEnv 9 "dr" "x" "y" "z"
    (Proto.mk "dr" ["x", "y"]) (Proto.mk "x" ["z"]) (Proto.mk "y" ["z"])
    [("x", Proto.mk "x" ["z"]), ("y", Proto.mk "y" ["z"]), ("z", Proto.mk "z" []),
      ("dr", Proto.mk "dr" ["x", "y"])]
    ["dr", "x", "y", "z", "z"] rfl rfl rfl rfl rfl rfl rfl

/-- C4: read_files returns, on success, exactly the per-reference fetch
results in input order (the path list of the output equals the input list and
each entry is the fetch result of its own reference); any single failing
fetch makes the whole call fail, so no partial result list is ever returned;
and a failing call reports as its error an offending reference from the input
list whose own fetch fails. -/
theorem read_files_ordered_all_or_nothing (env : Env) (files : List String) :
    (∀ frs log, read_files env files = (Except.ok frs, log) →
      frs.map FileRead.path = files ∧ ∀ fr ∈ frs, (read_file env fr.path).1 = Except.ok fr) ∧
    (∀ f msg, f ∈ files → (read_file env f).1 = Except.error msg →
      ∃ e log, read_files env files = (Except.error e, log)) ∧
    (∀ e log, read_files env files = (Except.error e, log) →
      e ∈ files ∧ ∃ msg, (read_file env e).1 = Except.error msg) :=
  ⟨fun frs log h => read_files_ok_spec env files frs log h,
    fun f msg hf herr => read_files_fail_if_any env files f msg hf herr,
    fun e log h => read_files_error_spec env files e log h⟩

/-- Witness for C4: a successful two-file batch in input order, and a batch
aborted by one missing file. -/
theorem read_files_ordered_all_or_nothing_witness :
    ([FileRead.mk "cr" "r", FileRead.mk "ca" "a"].map FileRead.path = ["r", "a"] ∧
      ∀ fr ∈ [FileRead.mk "cr" "r", FileRead.mk "ca" "a"],
        (read_file demoEnv fr.path).1 = Except.ok fr) ∧
    (∃ e log, read_files demoEnv ["r", "missing", "a"] = (Except.error e, log)) :=
  ⟨(read_files_ordered_all_or_nothing demoEnv ["r", "a"]).1 _ _ rfl,
    (read_files_ordered_all_or_nothing demoEnv ["r", "missing", "a"]).2.1
      "missing" "missing" (by simp) rfl⟩

/-- C5: ext_script on a ConfigSet whose script is a Path succeeds exactly
when the fetch of its source reference succeeds, rewriting the script to an
inlined File script holding the fetched content with the unchanged timeout
and no residual path; on a File script or no script at all, the ConfigSet is
returned entirely unchanged. -/
theorem ext_script_spec (env : Env) (cs : ConfigSet) :
    match cs.config.server.script with
    | some (Script.path opts) =>
      (match read_file env opts.src with
       | (Except.ok fr, log) =>
         ext_script env cs =
           (Except.ok (set_script cs (some (Script.file ⟨fr.content, opts.timeout⟩))), log)
       | (Except.error e, log) => ext_script env cs = (Except.error e, log))
    | _ => ext_script env cs = (Except.ok cs, []) := by
  cases hs : cs.config.server.script with
  | none =>
    dsimp only
    unfold ext_script
    rw [hs]
  | some s =>
    cases s with
    | path opts =>
      dsimp only
      cases hrf : read_file env opts.src with
      | mk r l =>
        cases r with
        | ok fr =>
          dsimp only
          unfold ext_script
          rw [hs]
          dsimp only
          rw [hrf]
        | error e =>
          dsimp only
          unfold ext_script
          rw [hs]
          dsimp only
          rw [hrf]
    | file opts =>
      dsimp only
      unfold ext_script
      rw [hs]

/-- C6: a successful read_all run certifies that every referenced file was
fetched, format-detected, parsed, and extension-resolved successfully; hence
a failure of any of those stages for any single referenced file prevents a
ConfigSet from being returned for the whole call — resolution is
all-or-nothing. -/
theorem read_all_all_or_nothing (env : Env) (fuel : Nat) (files : List String)
    (cs : ConfigSet) (log : List String)
    (h : read_all env fuel files = some (Except.ok cs, log)) :
    ∀ f ∈ files, ∃ fr, (read_file env f).1 = Except.ok fr ∧ fr.path = f ∧
      ∃ tag, env.detect f = Except.ok tag ∧
      ∃ config, env.fromSource tag fr.content = Except.ok config ∧
      ∃ csf logf, resolve env fuel config = some (Except.ok csf, logf) := by
  unfold read_all at h
  cases hrf : read_files env files with
  | mk r0 l0 =>
    rw [hrf] at h
    cases r0 with
    | error e =>
      dsimp only at h
      simp at h
    | ok frs =>
      dsimp only at h
      cases hfold : read_all_fold env fuel frs ConfigSet.default with
      | none =>
        rw [hfold] at h
        simp at h
      | some rl =>
        obtain ⟨r1, l1⟩ := rl
        rw [hfold] at h
        cases r1 with
        | error e =>
          dsimp only at h
          simp at h
        | ok cs' =>
          intro f hf
          obtain ⟨hmap, hok⟩ := read_files_ok_spec env files frs l0 hrf
          rw [← hmap] at hf
          obtain ⟨fr, hfrmem, hfrpath⟩ := List.mem_map.mp hf
          obtain ⟨tag, hdet, config, hsrc, csf, logf, hres⟩ :=
            read_all_fold_ok_spec env fuel frs ConfigSet.default cs' l1 hfold fr hfrmem
          refine ⟨fr, ?_, hfrpath, tag, ?_, config, hsrc, csf, logf, hres⟩
          · rw [← hfrpath]
            exact hok fr hfrmem
          · rw [← hfrpath]
            exact hdet

/-- Witness for C6 on a one-file batch that succeeds end to end. -/
theorem read_all_all_or_nothing_witness :
    ∃ fr, (read_file demoEnv "cfg.graphql").1 = Except.ok fr ∧ fr.path = "cfg.graphql" ∧
      ∃ tag, demoEnv.detect "cfg.graphql" = Except.ok tag ∧
      ∃ config, demoEnv.fromSource tag fr.content = Except.ok config ∧
      ∃ csf logf, resolve demoEnv 5 config = some (Except.ok csf, logf) :=
  read_all_all_or_nothing demoEnv 5 ["cfg.graphql"]
    { config := { server := { script := none }, types := [] },
      extensions := Extensions.default } ["cfg.graphql"] rfl "cfg.graphql" (by simp)

/-- C7: the descriptor map built by ext_grpc is a pure function of the set of
distinct descriptor paths referenced by the configuration's type fields,
whether directly or inside field-level expression bodies: two configurations
whose referenced path lists agree as sets yield, on success, descriptor maps
with identical lookups, independently of scan order, of how many fields
reference the same path, and of the fuel bounds. -/
theorem ext_grpc_descriptor_set_pure (env : Env) (fuel1 fuel2 : Nat)
    (c1 c2 : Config) (d1 d2 : DMap) (log1 log2 : List String)
    (h1 : ext_grpc_descriptors env fuel1 c1 = some (Except.ok d1, log1))
    (h2 : ext_grpc_descriptors env fuel2 c2 = some (Except.ok d2, log2))
    (hset : ∀ p, p ∈ field_paths c1 ↔ p ∈ field_paths c2) :
    ∀ k, dfind d1 k = dfind d2 k := by
  have hnd : (dkeys ([] : DMap)).Nodup := List.nodup_nil
  have hsd : soundMap env [] := by
    intro k v hv
    simp [dfind] at hv
  have hcd : closedMap [] := by
    intro k v hv
    simp [dfind] at hv
  obtain ⟨N1, S1, C1h, M1, I1⟩ :=
    ext_grpc_fold_char env fuel1 (field_paths c1) [] d1 log1 hnd hsd hcd h1
  obtain ⟨N2, S2, C2h, M2, I2⟩ :=
    ext_grpc_fold_char env fuel2 (field_paths c2) [] d2 log2 hnd hsd hcd h2
  intro k
  have hiff : (dfind d1 k).isSome ↔ (dfind d2 k).isSome := by
    rw [I1 k, I2 k]
    constructor
    · rintro (hemp | ⟨p, hp1, hp2, hp3⟩)
      · exact absurd hemp (by simp [dfind])
      · exact Or.inr ⟨p, (hset p).mp hp1, hp2, hp3⟩
    · rintro (hemp | ⟨p, hp1, hp2, hp3⟩)
      · exact absurd hemp (by simp [dfind])
      · exact Or.inr ⟨p, (hset p).mpr hp1, hp2, hp3⟩
  cases ho1 : dfind d1 k with
  | none =>
    cases ho2 : dfind d2 k with
    | none => rfl
    | some v2 =>
      have hs2 : (dfind d2 k).isSome := by
        rw [ho2]
        rfl
      have := hiff.mpr hs2
      rw [ho1] at this
      exact absurd this (by simp)
  | some v1 =>
    have hs1 : (dfind d1 k).isSome := by
      rw [ho1]
      rfl
    have hs2 := hiff.mp hs1
    cases ho2 : dfind d2 k with
    | none =>
      rw [ho2] at hs2
      exact absurd hs2 (by simp)
    | some v2 =>
      have e1 := S1 k v1 ho1
      have e2 := S2 k v2 ho2
      rw [e1] at e2
      injection e2 with h3
      rw [h3]

/-- Witness for C7: the configurations referencing paths a, z, a and z, a
produce descriptor maps that agree on lookups (shown at key z). -/
theorem ext_grpc_descriptor_set_pure_witness :
    dfind [("a", Proto.mk "a" []), ("z", Proto.mk "z" [])] "z" =
      dfind [("z", Proto.mk "z" []), ("a", Proto.mk "a" [])] "z" :=
  ext_grpc_descriptor_set_pure demoEnv 5 5 demoConfig1 demoConfig2
    [("a", Proto.mk "a" []), ("z", Proto.mk "z" [])]
    [("z", Proto.mk "z" []), ("a", Proto.mk "a" [])]
    ["a", "z", "a"] ["z", "a"] rfl rfl
    (by
      intro p
      show p ∈ ["a", "z", "a"] ↔ p ∈ ["z", "a"]
      simp
      tauto) "z"

/-- C8: read_proto on a path present in the bundled well-known catalog
performs no Source-Loader fetch at all — its fetch log is empty, so neither
the filesystem nor the network transport is invoked — and the bundled content
is parsed directly. -/
theorem read_proto_well_known_no_fetch (env : Env) (path content : String)
    (h : env.wellKnown path = some content) :
    (read_proto env path).2 = [] ∧
    (read_proto env path).1 =
      (match env.parseProto path content with
       | Except.ok deps => Except.ok ⟨path, deps⟩
       | Except.error e => Except.error e) := by
  unfold read_proto
  rw [h]
  exact ⟨rfl, rfl⟩

/-- Witness for C8 on the bundled catalog entry of the demonstration
environment. -/
theorem read_proto_well_known_no_fetch_witness :
    (read_proto demoEnv "google/protobuf/empty.proto").2 = [] ∧
    (read_proto demoEnv "google/protobuf/empty.proto").1 =
      (match demoEnv.parseProto "google/protobuf/empty.proto" "wkempty" with
       | Except.ok deps => Except.ok ⟨"google/protobuf/empty.proto", deps⟩
       | Except.error e => Except.error e) :=
  read_proto_well_known_no_fetch demoEnv "google/protobuf/empty.proto" "wkempty" rfl

/-- C9: ext_grpc replaces the entire extensions value of its input with a
freshly built one: on success the config part is unchanged, the new
extensions hold exactly the values of the resolved descriptor map with every
other extension field at its default, and the outcome is the same for any
input extensions value — prior extension data is discarded. -/
theorem ext_grpc_fresh_extensions (env : Env) (fuel : Nat) (cs cs' : ConfigSet)
    (log : List String)
    (h : ext_grpc env fuel cs = some (Except.ok cs', log)) :
    cs'.config = cs.config ∧
    (∃ d, ext_grpc_descriptors env fuel cs.config = some (Except.ok d, log) ∧
      cs'.extensions = { Extensions.default with grpc_file_descriptor := ⟨d.map Prod.snd⟩ }) ∧
    (∀ e', ext_grpc env fuel { config := cs.config, extensions := e' } =
      some (Except.ok { config := cs.config, extensions := cs'.extensions }, log)) := by
  unfold ext_grpc at h
  cases hd : ext_grpc_descriptors env fuel cs.config with
  | none =>
    rw [hd] at h
    simp at h
  | some rl =>
    obtain ⟨r1, l1⟩ := rl
    rw [hd] at h
    cases r1 with
    | error e =>
      dsimp only at h
      simp at h
    | ok d =>
      dsimp only at h
      simp only [Option.some.injEq, Prod.mk.injEq, Except.ok.injEq] at h
      obtain ⟨h1, h2⟩ := h
      subst h2
      refine ⟨?_, ⟨d, rfl, ?_⟩, ?_⟩
      · rw [← h1]
      · rw [← h1]
      · intro e'
        unfold ext_grpc
        dsimp only
        rw [hd]
        dsimp only
        rw [← h1]

/-- Witness for C9: stale extension data on the input is discarded and
replaced by the freshly resolved descriptors. -/
theorem ext_grpc_fresh_extensions_witness :
    (ConfigSet.mk demoStaleCS.config ⟨⟨[Proto.mk "a" []]⟩, []⟩).config = demoStaleCS.config ∧
    ext_grpc demoEnv 5 (ConfigSet.mk demoStaleCS.config Extensions.default) =
      some (Except.ok (ConfigSet.mk demoStaleCS.config ⟨⟨[Proto.mk "a" []]⟩, []⟩), ["a"]) := by
  have H := ext_grpc_fresh_extensions demoEnv 5 demoStaleCS
    (ConfigSet.mk demoStaleCS.config ⟨⟨[Proto.mk "a" []]⟩, []⟩) ["a"] rfl
  exact ⟨H.1, H.2.2 Extensions.default⟩

/-- C10: read_all applied to an empty reference list succeeds, returns the
default (empty) ConfigSet, and performs no filesystem or network fetch (its
fetch log is empty). -/
theorem read_all_empty (env : Env) (fuel : Nat) :
    read_all env fuel [] = some (Except.ok ConfigSet.default, []) := rfl
